import Mathlib

/-!
Verification of the AutoSub subtitle pipeline.

The development shallowly embeds the subtitle data model and the pure
algorithms of the application: subtitle normalization
(`postProcessSubtitles` in `src/services/geminiService.ts`), the
cursor-based active-segment lookup of the player
(`updateUI`/`handleSeek` in `src/components/SubtitleOverlay.tsx`), the
burned-export dimension computation, export cache, resource teardown and
caption-file writer (`src/App.tsx`).  Times are modelled as rationals,
JS arrays as lists, strings as `String`/`List Char`.
-/

namespace AutoSub

/-- `SubtitleSegment` from `src/types.ts`: start/end times in seconds plus
the two text variants. -/
structure SubtitleSegment where
  startTime : ℚ
  endTime : ℚ
  english : String
  chinese : String
deriving DecidableEq

instance : Inhabited SubtitleSegment := ⟨⟨0, 0, "", ""⟩⟩

/-! ## Normalization (`postProcessSubtitles`, geminiService.ts lines 20-64) -/

/-- Comparator order used by `subtitles.sort((a, b) => a.startTime - b.startTime)`. -/
def segLE (a b : SubtitleSegment) : Prop := a.startTime ≤ b.startTime

instance : DecidableRel segLE := fun a b => inferInstanceAs (Decidable (a.startTime ≤ b.startTime))

instance : IsTotal SubtitleSegment segLE := ⟨fun a b => le_total a.startTime b.startTime⟩

instance : IsTrans SubtitleSegment segLE := ⟨fun _ _ _ h1 h2 => le_trans h1 h2⟩

/-- Step 2 of `postProcessSubtitles`: if `endTime <= startTime`, set
`endTime = startTime + 1.5`. -/
def clampSeg (s : SubtitleSegment) : SubtitleSegment :=
  if s.endTime ≤ s.startTime then { s with endTime := s.startTime + 3/2 } else s

/-- Step 3 of `postProcessSubtitles`: one forward pass over adjacent pairs;
if `current.endTime > next.startTime`, trim `current.endTime = next.startTime`
(both branches of the source's inner `if` perform the same assignment). -/
def trimPass : List SubtitleSegment → List SubtitleSegment
  | [] => []
  | [s] => [s]
  | a :: b :: rest =>
    (if b.startTime < a.endTime then { a with endTime := b.startTime } else a) :: trimPass (b :: rest)

/-- `postProcessSubtitles` (geminiService.ts lines 20-64): early return on an
empty input, stable sort by `startTime`, then the clamp pass, then the
overlap-trim pass.  The JS engine's `Array.prototype.sort` is stable, which is
modelled by the (stable) insertion sort. -/
def postProcessSubtitles (subtitles : List SubtitleSegment) : List SubtitleSegment :=
  if subtitles.isEmpty then []
  else trimPass ((subtitles.insertionSort segLE).map clampSeg)

/-! Basic facts: neither pass changes a segment's `startTime`, and `trimPass`
preserves the sequence of start times. -/

theorem clampSeg_startTime (s : SubtitleSegment) : (clampSeg s).startTime = s.startTime := by
  unfold clampSeg; split <;> rfl

theorem clampSeg_lt (s : SubtitleSegment) : (clampSeg s).startTime < (clampSeg s).endTime := by
  unfold clampSeg
  split
  · show s.startTime < s.startTime + 3/2
    linarith
  · next h => exact lt_of_not_le h

theorem trimPass_map_startTime :
    ∀ l : List SubtitleSegment, (trimPass l).map (·.startTime) = l.map (·.startTime)
  | [] => rfl
  | [s] => rfl
  | a :: b :: rest => by
    have ih := trimPass_map_startTime (b :: rest)
    simp only [trimPass, List.map_cons] at ih ⊢
    rw [ih]
    congr 1
    split <;> rfl

theorem trimPass_length (l : List SubtitleSegment) : (trimPass l).length = l.length := by
  have := congrArg List.length (trimPass_map_startTime l)
  simpa using this

theorem trimPass_cons (b : SubtitleSegment) (rest : List SubtitleSegment) :
    ∃ b' l', trimPass (b :: rest) = b' :: l' ∧ b'.startTime = b.startTime := by
  cases rest with
  | nil => exact ⟨b, [], rfl, rfl⟩
  | cons c cs =>
    refine ⟨_, _, rfl, ?_⟩
    split <;> rfl

theorem pairwise_segLE_iff (l : List SubtitleSegment) :
    l.Pairwise segLE ↔ (l.map (·.startTime)).Pairwise (· ≤ ·) := by
  rw [List.pairwise_map]
  rfl

theorem trimPass_pairwise (l : List SubtitleSegment) (h : l.Pairwise segLE) :
    (trimPass l).Pairwise segLE := by
  rw [pairwise_segLE_iff, trimPass_map_startTime]
  exact (pairwise_segLE_iff l).mp h

theorem trimPass_chain' :
    ∀ l : List SubtitleSegment, (trimPass l).Chain' (fun a b => a.endTime ≤ b.startTime)
  | [] => List.chain'_nil
  | [_] => List.chain'_singleton _
  | a :: b :: rest => by
    have ih := trimPass_chain' (b :: rest)
    obtain ⟨b', l', heq, hstart⟩ := trimPass_cons b rest
    rw [show trimPass (a :: b :: rest) =
        (if b.startTime < a.endTime then { a with endTime := b.startTime } else a) ::
          trimPass (b :: rest) from rfl, heq]
    rw [heq] at ih
    refine List.chain'_cons.mpr ⟨?_, ih⟩
    rw [hstart]
    split
    · exact le_refl _
    · next h => exact le_of_not_lt h

theorem trimPass_dur :
    ∀ l : List SubtitleSegment, l.Pairwise segLE → (∀ s ∈ l, s.startTime < s.endTime) →
      ∀ s ∈ trimPass l, s.startTime ≤ s.endTime
  | [], _, _ => by simp [trimPass]
  | [s], _, hd => by
    simpa [trimPass] using le_of_lt (hd s (by simp))
  | a :: b :: rest, hp, hd => by
    have ih := trimPass_dur (b :: rest) hp.of_cons (fun s hs => hd s (List.mem_cons_of_mem _ hs))
    intro s hs
    rw [show trimPass (a :: b :: rest) =
        (if b.startTime < a.endTime then { a with endTime := b.startTime } else a) ::
          trimPass (b :: rest) from rfl] at hs
    rcases List.mem_cons.mp hs with h | h
    · subst h
      split
      · exact (List.pairwise_cons.mp hp).1 b (by simp)
      · exact le_of_lt (hd a (by simp))
    · exact ih s h

theorem trimPass_dur_strict :
    ∀ l : List SubtitleSegment, l.Pairwise (fun a b => a.startTime < b.startTime) →
      (∀ s ∈ l, s.startTime < s.endTime) → ∀ s ∈ trimPass l, s.startTime < s.endTime
  | [], _, _ => by simp [trimPass]
  | [s], _, hd => by simpa [trimPass] using hd s (by simp)
  | a :: b :: rest, hp, hd => by
    have ih := trimPass_dur_strict (b :: rest) hp.of_cons
      (fun s hs => hd s (List.mem_cons_of_mem _ hs))
    intro s hs
    rw [show trimPass (a :: b :: rest) =
        (if b.startTime < a.endTime then { a with endTime := b.startTime } else a) ::
          trimPass (b :: rest) from rfl] at hs
    rcases List.mem_cons.mp hs with h | h
    · subst h
      split
      · exact (List.pairwise_cons.mp hp).1 b (by simp)
      · exact hd a (by simp)
    · exact ih s h

/-- The sorted, clamped intermediate list of `postProcessSubtitles`. -/
def sortedClamped (subs : List SubtitleSegment) : List SubtitleSegment :=
  (subs.insertionSort segLE).map clampSeg

theorem sortedClamped_pairwise (subs : List SubtitleSegment) :
    (sortedClamped subs).Pairwise segLE := by
  have h := List.sorted_insertionSort segLE subs
  refine List.Pairwise.map clampSeg ?_ h
  intro a b hab
  show (clampSeg a).startTime ≤ (clampSeg b).startTime
  rw [clampSeg_startTime, clampSeg_startTime]
  exact hab

theorem sortedClamped_dur (subs : List SubtitleSegment) :
    ∀ s ∈ sortedClamped subs, s.startTime < s.endTime := by
  intro s hs
  obtain ⟨t, _, rfl⟩ := List.mem_map.mp hs
  exact clampSeg_lt t

/-- Claim C1, amended.  For every raw list, the output of
`postProcessSubtitles` is sorted ascending by `startTime` and adjacent
segments satisfy `current.endTime <= next.startTime`; every segment satisfies
`startTime <= endTime`, and the strict `startTime < endTime` additionally
holds whenever the raw start times are pairwise distinct (the overlap trim
can collapse a segment to zero duration only when two segments share a start
time). -/
theorem postProcessSubtitles_normalizes (subs : List SubtitleSegment) :
    (postProcessSubtitles subs).Pairwise segLE
    ∧ (postProcessSubtitles subs).Chain' (fun a b => a.endTime ≤ b.startTime)
    ∧ (∀ s ∈ postProcessSubtitles subs, s.startTime ≤ s.endTime)
    ∧ ((subs.map (·.startTime)).Pairwise (· ≠ ·) →
        ∀ s ∈ postProcessSubtitles subs, s.startTime < s.endTime) := by
  by_cases hE : subs.isEmpty
  · simp [postProcessSubtitles, hE]
  · have hpp : postProcessSubtitles subs = trimPass (sortedClamped subs) := by
      simp [postProcessSubtitles, hE, sortedClamped]
    refine ⟨?_, ?_, ?_, ?_⟩
    · rw [hpp]; exact trimPass_pairwise _ (sortedClamped_pairwise subs)
    · rw [hpp]; exact trimPass_chain' _
    · rw [hpp]
      exact trimPass_dur _ (sortedClamped_pairwise subs) (sortedClamped_dur subs)
    · intro hne
      rw [hpp]
      refine trimPass_dur_strict _ ?_ (sortedClamped_dur subs)
      have hsorted := sortedClamped_pairwise subs
      have hmapeq : (sortedClamped subs).map (·.startTime) =
          (subs.insertionSort segLE).map (·.startTime) := by
        unfold sortedClamped
        rw [List.map_map]
        exact List.map_congr_left fun s _ => clampSeg_startTime s
      have hperm : List.Perm ((sortedClamped subs).map (·.startTime)) (subs.map (·.startTime)) := by
        rw [hmapeq]
        exact List.Perm.map _ (List.perm_insertionSort segLE subs)
      have hmapped : ((sortedClamped subs).map (·.startTime)).Pairwise (· ≠ ·) :=
        (hperm.pairwise_iff fun h => Ne.symm h).mpr hne
      have hne' : (sortedClamped subs).Pairwise fun a b => a.startTime ≠ b.startTime :=
        List.pairwise_map.mp hmapped
      have hlt := hsorted.and hne'
      exact hlt.imp fun h => lt_of_le_of_ne h.1 h.2

/-- Claim C1, counterexample.  Two raw segments sharing a start time:
the overlap trim rewrites the first one's `endTime` to the second one's
`startTime`, producing a zero-duration segment, so the claimed
`endTime > startTime` guarantee fails on this input. -/
theorem postProcessSubtitles_duration_violation :
    ¬ (∀ s ∈ postProcessSubtitles [⟨0, 2, "A", "a"⟩, ⟨0, 3, "B", "b"⟩],
        s.startTime < s.endTime) := by decide

/-- Witness for `postProcessSubtitles_normalizes` at a concrete unsorted,
overlapping raw list with pairwise-distinct start times. -/
theorem postProcessSubtitles_normalizes_witness :
    ((postProcessSubtitles [⟨2, 8, "B", "b"⟩, ⟨0, 1, "A", "a"⟩, ⟨5, 5, "C", "c"⟩]).Pairwise segLE
    ∧ (postProcessSubtitles [⟨2, 8, "B", "b"⟩, ⟨0, 1, "A", "a"⟩, ⟨5, 5, "C", "c"⟩]).Chain'
        (fun a b => a.endTime ≤ b.startTime)
    ∧ (∀ s ∈ postProcessSubtitles [⟨2, 8, "B", "b"⟩, ⟨0, 1, "A", "a"⟩, ⟨5, 5, "C", "c"⟩],
        s.startTime ≤ s.endTime))
    ∧ (([⟨2, 8, "B", "b"⟩, ⟨0, 1, "A", "a"⟩,
          (⟨5, 5, "C", "c"⟩ : SubtitleSegment)].map (·.startTime)).Pairwise (· ≠ ·)
        ∧ ∀ s ∈ postProcessSubtitles [⟨2, 8, "B", "b"⟩, ⟨0, 1, "A", "a"⟩, ⟨5, 5, "C", "c"⟩],
            s.startTime < s.endTime) := by
  have h := postProcessSubtitles_normalizes [⟨2, 8, "B", "b"⟩, ⟨0, 1, "A", "a"⟩, ⟨5, 5, "C", "c"⟩]
  exact ⟨⟨h.1, h.2.1, h.2.2.1⟩, by decide, h.2.2.2 (by decide)⟩

/-- Helper for claim C5: the trim pass is the identity on lists whose
adjacent segments already satisfy `endTime <= startTime`. -/
theorem trimPass_eq_self :
    ∀ l : List SubtitleSegment, l.Chain' (fun a b => a.endTime ≤ b.startTime) → trimPass l = l
  | [], _ => rfl
  | [_], _ => rfl
  | a :: b :: rest, h => by
    obtain ⟨hab, htail⟩ := List.chain'_cons.mp h
    rw [show trimPass (a :: b :: rest) =
        (if b.startTime < a.endTime then { a with endTime := b.startTime } else a) ::
          trimPass (b :: rest) from rfl]
    rw [if_neg (not_lt.mpr hab), trimPass_eq_self (b :: rest) htail]

/-- Claim C5: `postProcessSubtitles` is the identity on lists already
satisfying the normalized invariant (sorted by start time, adjacent
segments non-overlapping, strictly positive durations). -/
theorem postProcessSubtitles_idempotent (subs : List SubtitleSegment)
    (hsort : subs.Pairwise segLE)
    (hsep : subs.Chain' (fun a b => a.endTime ≤ b.startTime))
    (hdur : ∀ s ∈ subs, s.startTime < s.endTime) :
    postProcessSubtitles subs = subs := by
  by_cases hE : subs.isEmpty
  · rw [List.isEmpty_iff.mp hE]; rfl
  · unfold postProcessSubtitles
    rw [if_neg (by simpa using hE)]
    rw [List.Sorted.insertionSort_eq hsort]
    have hclamp : subs.map clampSeg = subs := by
      have : ∀ s ∈ subs, clampSeg s = s := by
        intro s hs
        unfold clampSeg
        rw [if_neg (not_le.mpr (hdur s hs))]
      rw [List.map_congr_left this]
      exact List.map_id' subs
    rw [hclamp]
    exact trimPass_eq_self subs hsep

/-- Witness for `postProcessSubtitles_idempotent` at a concrete normalized list. -/
theorem postProcessSubtitles_idempotent_witness :
    (([⟨0, 1, "A", "a"⟩, (⟨2, 3, "B", "b"⟩ : SubtitleSegment)] : List SubtitleSegment).Pairwise segLE
    ∧ ([⟨0, 1, "A", "a"⟩, (⟨2, 3, "B", "b"⟩ : SubtitleSegment)] : List SubtitleSegment).Chain'
        (fun a b => a.endTime ≤ b.startTime)
    ∧ ∀ s ∈ ([⟨0, 1, "A", "a"⟩, (⟨2, 3, "B", "b"⟩ : SubtitleSegment)] : List SubtitleSegment),
        s.startTime < s.endTime)
    ∧ postProcessSubtitles [⟨0, 1, "A", "a"⟩, ⟨2, 3, "B", "b"⟩] =
        [⟨0, 1, "A", "a"⟩, ⟨2, 3, "B", "b"⟩] :=
  ⟨⟨by decide, List.chain'_cons.mpr ⟨by norm_num, List.chain'_singleton _⟩, by decide⟩,
    postProcessSubtitles_idempotent _ (by decide)
      (List.chain'_cons.mpr ⟨by norm_num, List.chain'_singleton _⟩) (by decide)⟩

/-! ## Burned-export target dimensions (`handleExportBurned`, App.tsx lines 490-508) -/

/-- `if (targetWidth % 2 !== 0) targetWidth--` — the even-forcing decrement. -/
def forceEven (n : ℤ) : ℤ := if n % 2 ≠ 0 then n - 1 else n

/-- Target-dimension computation of the preparing phase of
`handleExportBurned` (App.tsx lines 490-508): if either source dimension
exceeds 1920x1080, scale by the aspect ratio (`Math.round` is modelled by
`round`, both round half up), choosing the clamped side by `ratio > 1`;
then force both dimensions even. -/
def computeTargetDims (w h : ℕ) : ℤ × ℤ :=
  let p : ℤ × ℤ :=
    if 1920 < w ∨ 1080 < h then
      let ratio : ℚ := (w : ℚ) / (h : ℚ)
      if 1 < ratio then ((1920 : ℤ), round ((1920 : ℚ) / ratio))
      else (round ((1080 : ℚ) * ratio), (1080 : ℤ))
    else ((w : ℤ), (h : ℤ))
  (forceEven p.1, forceEven p.2)

theorem forceEven_emod (n : ℤ) : forceEven n % 2 = 0 := by
  unfold forceEven
  split <;> omega

theorem forceEven_le (n : ℤ) : forceEven n ≤ n := by
  unfold forceEven
  split <;> omega

theorem round_le_round {x y : ℚ} (h : x ≤ y) : round x ≤ round y := by
  rw [round_eq, round_eq]
  exact Int.floor_le_floor (by linarith)

theorem abs_forceEven_round (x : ℚ) : |((forceEven (round x) : ℤ) : ℚ) - x| ≤ 3/2 := by
  have h1 : |x - (round x : ℚ)| ≤ 1/2 := abs_sub_round x
  have h2 : ((round x : ℤ) : ℚ) - 1 ≤ ((forceEven (round x) : ℤ) : ℚ)
      ∧ ((forceEven (round x) : ℤ) : ℚ) ≤ ((round x : ℤ) : ℚ) := by
    unfold forceEven
    split <;> constructor <;> push_cast <;> linarith
  rw [abs_le] at h1 ⊢
  constructor <;> linarith [h1.1, h1.2, h2.1, h2.2]

/-- Claim C2, counterexample.  A 2000x1900 source exceeds the width bound,
so the clamp branch for `ratio > 1` is taken: the width is clamped to 1920
but the rescaled height 1824 exceeds the claimed 1080 maximum. -/
theorem computeTargetDims_height_violation :
    computeTargetDims 2000 1900 = (1920, 1824) ∧ ¬ ((1824 : ℤ) ≤ 1080) := by
  constructor
  · norm_num [computeTargetDims, forceEven, round_eq]
  · decide

/-- Claim C2, amended.  The computed dimensions are both even; the width
never exceeds 1920; the height is bounded by 1920 (not by 1080: when
`ratio > 1` only the width is clamped, and the rescaled height may exceed
1080), and bounded by 1080 whenever the source is not wider than tall; a
source within 1920x1080 is kept (up to the even-forcing decrement); in the
scaling branches the clamped side is exact and the other side preserves the
source aspect ratio up to the combined rounding and even-forcing error of
3/2 of a pixel. -/
theorem computeTargetDims_spec (w h : ℕ) (hw : 0 < w) (hh : 0 < h) :
    (computeTargetDims w h).1 % 2 = 0
    ∧ (computeTargetDims w h).2 % 2 = 0
    ∧ (computeTargetDims w h).1 ≤ 1920
    ∧ (computeTargetDims w h).2 ≤ 1920
    ∧ (w ≤ 1920 → h ≤ 1080 → computeTargetDims w h = (forceEven w, forceEven h))
    ∧ (w ≤ h → (computeTargetDims w h).2 ≤ 1080)
    ∧ ((1920 < w ∨ 1080 < h) → h < w →
        (computeTargetDims w h).1 = 1920
        ∧ |((computeTargetDims w h).2 : ℚ) - 1920 * h / w| ≤ 3/2)
    ∧ ((1920 < w ∨ 1080 < h) → w ≤ h →
        (computeTargetDims w h).2 = 1080
        ∧ |((computeTargetDims w h).1 : ℚ) - 1080 * w / h| ≤ 3/2) := by
  have hw' : (0 : ℚ) < (w : ℚ) := by exact_mod_cast hw
  have hh' : (0 : ℚ) < (h : ℚ) := by exact_mod_cast hh
  have hratio_iff : (1 : ℚ) < (w : ℚ) / (h : ℚ) ↔ h < w := by
    rw [lt_div_iff hh', one_mul]
    exact_mod_cast Nat.cast_lt
  have hround1920 : round ((1920 : ℚ)) = 1920 := by
    norm_num [round_eq]
  have hround1080 : round ((1080 : ℚ)) = 1080 := by
    norm_num [round_eq]
  by_cases hbr : 1920 < w ∨ 1080 < h
  · by_cases hr : (1 : ℚ) < (w : ℚ) / (h : ℚ)
    · -- landscape clamp branch: width pinned to 1920
      have hd : computeTargetDims w h =
          (forceEven 1920, forceEven (round ((1920 : ℚ) / ((w : ℚ) / (h : ℚ))))) := by
        simp only [computeTargetDims]
        rw [if_pos hbr, if_pos hr]
      have hd1 : (computeTargetDims w h).1 = forceEven 1920 := by rw [hd]
      have hd2 : (computeTargetDims w h).2 =
          forceEven (round ((1920 : ℚ) / ((w : ℚ) / (h : ℚ)))) := by rw [hd]
      have hdivEq : (1920 : ℚ) / ((w : ℚ) / (h : ℚ)) = 1920 * (h : ℚ) / (w : ℚ) :=
        div_div_eq_mul_div 1920 _ _
      have hhw : h < w := hratio_iff.mp hr
      have hween : forceEven 1920 = 1920 := by decide
      have hbound : (1920 : ℚ) / ((w : ℚ) / (h : ℚ)) ≤ 1920 := by
        rw [hdivEq, div_le_iff hw']
        have : (h : ℚ) ≤ (w : ℚ) := by exact_mod_cast le_of_lt hhw
        nlinarith
      have h2le : (computeTargetDims w h).2 ≤ 1920 := by
        rw [hd2]
        calc forceEven (round ((1920 : ℚ) / ((w : ℚ) / (h : ℚ))))
            ≤ round ((1920 : ℚ) / ((w : ℚ) / (h : ℚ))) := forceEven_le _
          _ ≤ round (1920 : ℚ) := round_le_round hbound
          _ = 1920 := hround1920
      refine ⟨?_, ?_, ?_, h2le, ?_, ?_, ?_, ?_⟩
      · rw [hd1]; exact forceEven_emod _
      · rw [hd2]; exact forceEven_emod _
      · rw [hd1, hween]
      · intro h1 h2
        exact absurd hbr (by omega)
      · intro hwh
        exact absurd hr (by rw [hratio_iff]; omega)
      · intro _ _
        refine ⟨by rw [hd1, hween], ?_⟩
        rw [hd2, ← hdivEq]
        exact abs_forceEven_round _
      · intro _ hwh
        exact absurd hr (by rw [hratio_iff]; omega)
    · -- portrait/square clamp branch: height pinned to 1080
      have hd : computeTargetDims w h =
          (forceEven (round ((1080 : ℚ) * ((w : ℚ) / (h : ℚ)))), forceEven 1080) := by
        simp only [computeTargetDims]
        rw [if_pos hbr, if_neg hr]
      have hd1 : (computeTargetDims w h).1 =
          forceEven (round ((1080 : ℚ) * ((w : ℚ) / (h : ℚ)))) := by rw [hd]
      have hd2 : (computeTargetDims w h).2 = forceEven 1080 := by rw [hd]
      have hmulEq : (1080 : ℚ) * ((w : ℚ) / (h : ℚ)) = 1080 * (w : ℚ) / (h : ℚ) :=
        (mul_div_assoc 1080 _ _).symm
      have hwh : w ≤ h := by
        by_contra hc
        exact hr (hratio_iff.mpr (by omega))
      have hheven : forceEven 1080 = 1080 := by decide
      have hbound : (1080 : ℚ) * ((w : ℚ) / (h : ℚ)) ≤ 1080 := by
        rw [hmulEq, div_le_iff hh']
        have : (w : ℚ) ≤ (h : ℚ) := by exact_mod_cast hwh
        nlinarith
      have h1le : (computeTargetDims w h).1 ≤ 1080 := by
        rw [hd1]
        calc forceEven (round ((1080 : ℚ) * ((w : ℚ) / (h : ℚ))))
            ≤ round ((1080 : ℚ) * ((w : ℚ) / (h : ℚ))) := forceEven_le _
          _ ≤ round (1080 : ℚ) := round_le_round hbound
          _ = 1080 := hround1080
      refine ⟨?_, ?_, by omega, ?_, ?_, ?_, ?_, ?_⟩
      · rw [hd1]; exact forceEven_emod _
      · rw [hd2]; exact forceEven_emod _
      · rw [hd2, hheven]; omega
      · intro h1 h2
        exact absurd hbr (by omega)
      · intro _
        rw [hd2, hheven]
      · intro _ hhw
        omega
      · intro _ _
        refine ⟨by rw [hd2, hheven], ?_⟩
        rw [hd1, ← hmulEq]
        exact abs_forceEven_round _
  · -- within bounds: dimensions are kept (even-forced)
    push_neg at hbr
    have hd : computeTargetDims w h = (forceEven w, forceEven h) := by
      simp only [computeTargetDims]
      rw [if_neg (by omega : ¬ (1920 < w ∨ 1080 < h))]
    have hd1 : (computeTargetDims w h).1 = forceEven w := by rw [hd]
    have hd2 : (computeTargetDims w h).2 = forceEven h := by rw [hd]
    refine ⟨?_, ?_, ?_, ?_, fun _ _ => hd, ?_, ?_, ?_⟩
    · rw [hd1]; exact forceEven_emod _
    · rw [hd2]; exact forceEven_emod _
    · rw [hd1]
      have := forceEven_le (w : ℤ)
      omega
    · rw [hd2]
      have := forceEven_le (h : ℤ)
      omega
    · intro _
      rw [hd2]
      have := forceEven_le (h : ℤ)
      omega
    · intro hcon _
      omega
    · intro hcon _
      omega

/-- Witness for `computeTargetDims_spec` at a 3840x2160 source. -/
theorem computeTargetDims_spec_witness :
    (0 < 3840 ∧ 0 < 2160)
    ∧ (computeTargetDims 3840 2160).1 % 2 = 0
    ∧ (computeTargetDims 3840 2160).2 % 2 = 0
    ∧ (computeTargetDims 3840 2160).1 ≤ 1920
    ∧ (computeTargetDims 3840 2160).2 ≤ 1920 := by
  have h := computeTargetDims_spec 3840 2160 (by decide) (by decide)
  exact ⟨⟨by decide, by decide⟩, h.1, h.2.1, h.2.2.1, h.2.2.2.1⟩

/-! ## Active-segment locator (`Player` in SubtitleOverlay.tsx, lines 256-364 and 426-437)

The mutable refs `activeSubIndexRef` (cursor) and `activeSubRef` (cached
last-returned segment) are modelled as an explicit state; one animation-frame
execution of the subtitle-sync part of `updateUI` is the function
`updateUILookup`.  JS reference equality `!==` on segments is modelled by
value equality. -/

structure LocState where
  cursor : ℤ
  cache : Option SubtitleSegment
deriving DecidableEq

/-- The containment test `time >= s.startTime && time <= s.endTime`. -/
def segContains (s : SubtitleSegment) (t : ℚ) : Bool :=
  decide (s.startTime ≤ t) && decide (t ≤ s.endTime)

/-- First containing segment with its index, scanning left to right from
index accumulator `i` (no early exit). -/
def linScanAux (t : ℚ) : List SubtitleSegment → ℕ → Option (ℕ × SubtitleSegment)
  | [], _ => none
  | s :: rest, i => if segContains s t then some (i, s) else linScanAux t rest (i + 1)

/-- The forward scan of `updateUI` (lines 286-294): like the linear scan but
with the sorted-list early exit `if (subtitles[i].startTime > time) break`. -/
def fwdScanAux (t : ℚ) : List SubtitleSegment → ℕ → Option (ℕ × SubtitleSegment)
  | [], _ => none
  | s :: rest, i =>
    if segContains s t then some (i, s)
    else if t < s.startTime then none
    else fwdScanAux t rest (i + 1)

/-- Reference O(n) linear scan — the semantics of
`subtitles.find(s => time >= s.startTime && time <= s.endTime)`, which is
literally the lookup used by the export draw loop (`drawFrame`, App.tsx). -/
def linearLocate (subs : List SubtitleSegment) (t : ℚ) : Option SubtitleSegment :=
  (linScanAux t subs 0).map Prod.snd

/-- The scan part of `updateUI` (lines 282-307): `startIndex =
Math.max(0, cursor)` (as `Int.toNat`), the forward scan from `startIndex`
with early exit, and — if it found nothing and `startIndex > 0` — the
backward fallback over `[0, startIndex)`.  (The source bounds the backward
scan by `Math.min(startIndex, subtitles.length)`; `List.take` clamps the
same way.)  Yields `(foundSub, foundIndex)`, with index `-1` when nothing
is found. -/
def scanPart (subs : List SubtitleSegment) (cur : ℤ) (t : ℚ) :
    Option SubtitleSegment × ℤ :=
  let startIndex : ℕ := cur.toNat
  match fwdScanAux t (subs.drop startIndex) startIndex with
  | some (i, s) => (some s, (i : ℤ))
  | none =>
    if 0 < startIndex then
      match linScanAux t (subs.take startIndex) 0 with
      | some (i, s) => (some s, (i : ℤ))
      | none => (none, -1)
    else (none, -1)

/-- One execution of the subtitle-sync logic of `updateUI`
(SubtitleOverlay.tsx lines 266-315) at playback time `t`: the stale-cursor
reset, the cached fast path, the scan (`scanPart`), and the final
conditional ref update.  Returns the found segment and the new ref state. -/
def updateUILookup (subs : List SubtitleSegment) (st : LocState) (t : ℚ) :
    Option SubtitleSegment × LocState :=
  if subs.length = 0 then
    (none, if none = st.cache then st else ⟨-1, none⟩)
  else
    let cur : ℤ := if (subs.length : ℤ) ≤ st.cursor then -1 else st.cursor
    let found : Option SubtitleSegment × ℤ :=
      match st.cache with
      | some c => if segContains c t then (some c, cur) else scanPart subs cur t
      | none => scanPart subs cur t
    (found.1, if found.1 = st.cache then ⟨cur, st.cache⟩ else ⟨found.2, found.1⟩)

/-- `handleSeek` (SubtitleOverlay.tsx lines 426-437): the cursor ref is set
to `-1`; the cached segment ref is not touched.  (The `updateUI()` call the
handler then performs is modelled separately by `updateUILookup`.) -/
def handleSeekReset (st : LocState) : LocState := { st with cursor := -1 }

/-- The `videoUrl` effect (SubtitleOverlay.tsx lines 347-364): on a source
change both refs are reset (`activeSubRef.current = null;
activeSubIndexRef.current = -1`). -/
def resetOnSourceChange (_st : LocState) : LocState := ⟨-1, none⟩

/-- Iterated lookup over a sequence of query times, threading the ref state. -/
def runLocate (subs : List SubtitleSegment) :
    LocState → List ℚ → List (Option SubtitleSegment) × LocState
  | st, [] => ([], st)
  | st, t :: ts =>
    let r := updateUILookup subs st t
    let rest := runLocate subs r.2 ts
    (r.1 :: rest.1, rest.2)

/-- Claim C3, counterexample.  After an explicit seek the cached
last-returned segment reference is NOT reset: `handleSeek` only resets the
cursor index, so the next lookup may still serve from the stale cache. -/
theorem handleSeekReset_keeps_cache :
    (handleSeekReset ⟨5, some ⟨0, 1, "A", "a"⟩⟩).cache = some ⟨0, 1, "A", "a"⟩
    ∧ (some (⟨0, 1, "A", "a"⟩ : SubtitleSegment) ≠ none) := by
  exact ⟨rfl, by decide⟩

/-- Claim C3, amended.  On a source change both the cursor and the cached
segment reference are reset to `-1`/`none`; on an explicit seek only the
cursor index is reset to `-1` while the cached segment reference is
retained (so the next lookup's fast path may still consult the stale cached
segment — its containment test keeps the result correct, but no full scan
is forced). -/
theorem seek_and_source_change_resets (st : LocState) :
    resetOnSourceChange st = ⟨-1, none⟩
    ∧ (handleSeekReset st).cursor = -1
    ∧ (handleSeekReset st).cache = st.cache :=
  ⟨rfl, rfl, rfl⟩

/-! Scan characterization lemmas for the refinement proof. -/

theorem segContains_iff {s : SubtitleSegment} {t : ℚ} :
    segContains s t = true ↔ s.startTime ≤ t ∧ t ≤ s.endTime := by
  simp [segContains]

theorem linScanAux_eq_none (t : ℚ) :
    ∀ (l : List SubtitleSegment) (i : ℕ),
      linScanAux t l i = none ↔ ∀ s ∈ l, segContains s t = false
  | [], i => by simp [linScanAux]
  | s :: rest, i => by
    by_cases h : segContains s t = true
    · simp [linScanAux, h]
    · rw [Bool.not_eq_true] at h
      simp [linScanAux, h, linScanAux_eq_none t rest (i + 1)]

theorem linScanAux_shift (t : ℚ) :
    ∀ (l : List SubtitleSegment) (i : ℕ),
      linScanAux t l i = (linScanAux t l 0).map (fun p => (p.1 + i, p.2))
  | [], i => rfl
  | s :: rest, i => by
    by_cases h : segContains s t = true
    · simp [linScanAux, h]
    · rw [Bool.not_eq_true] at h
      simp only [linScanAux, h, Bool.false_eq_true, if_false]
      rw [linScanAux_shift t rest (i + 1), linScanAux_shift t rest (0 + 1)]
      cases linScanAux t rest 0 with
      | none => rfl
      | some p =>
        obtain ⟨j, u⟩ := p
        show some (j + (i + 1), u) = some (j + (0 + 1) + i, u)
        have harith : j + (i + 1) = j + (0 + 1) + i := by omega
        rw [harith]

theorem linScanAux_append_some (t : ℚ) :
    ∀ (l1 l2 : List SubtitleSegment) (i : ℕ) (r : ℕ × SubtitleSegment),
      linScanAux t l1 i = some r → linScanAux t (l1 ++ l2) i = some r
  | [], _, _, _, h => by simp [linScanAux] at h
  | s :: rest, l2, i, r, h => by
    by_cases hc : segContains s t = true
    · simpa [linScanAux, hc] using h
    · rw [Bool.not_eq_true] at hc
      simp only [List.cons_append, linScanAux, hc, Bool.false_eq_true, if_false] at h ⊢
      exact linScanAux_append_some t rest l2 (i + 1) r h

theorem linScanAux_append_none (t : ℚ) :
    ∀ (l1 l2 : List SubtitleSegment) (i : ℕ), linScanAux t l1 i = none →
      linScanAux t (l1 ++ l2) i = linScanAux t l2 (i + l1.length)
  | [], l2, i, _ => by simp [linScanAux]
  | s :: rest, l2, i, h => by
    by_cases hc : segContains s t = true
    · simp [linScanAux, hc] at h
    · rw [Bool.not_eq_true] at hc
      simp only [List.cons_append, linScanAux, hc, Bool.false_eq_true, if_false,
        List.append_eq] at h ⊢
      rw [linScanAux_append_none t rest l2 (i + 1) h, List.length_cons]
      congr 1
      omega

theorem fwdScanAux_eq_linScanAux (t : ℚ) :
    ∀ (l : List SubtitleSegment), l.Pairwise segLE →
      ∀ (i : ℕ), fwdScanAux t l i = linScanAux t l i
  | [], _, _ => rfl
  | s :: rest, hp, i => by
    by_cases hc : segContains s t = true
    · simp [fwdScanAux, linScanAux, hc]
    · rw [Bool.not_eq_true] at hc
      by_cases hlt : t < s.startTime
      · have hrest : linScanAux t rest (i + 1) = none := by
          rw [linScanAux_eq_none]
          intro u hu
          have hle : s.startTime ≤ u.startTime := (List.pairwise_cons.mp hp).1 u hu
          rw [← Bool.not_eq_true, segContains_iff]
          push_neg
          intro hut
          exact absurd (le_trans hle hut) (not_le.mpr hlt)
        simp [fwdScanAux, linScanAux, hc, hlt, hrest]
      · simp only [fwdScanAux, linScanAux, hc, Bool.false_eq_true, if_false, if_neg hlt]
        exact fwdScanAux_eq_linScanAux t rest hp.of_cons (i + 1)

theorem linScanAux_some_spec (t : ℚ) :
    ∀ (l : List SubtitleSegment) (i : ℕ) (s : SubtitleSegment),
      linScanAux t l 0 = some (i, s) →
      l[i]? = some s ∧ segContains s t = true
      ∧ ∀ j < i, ∀ u, l[j]? = some u → segContains u t = false
  | [], i, s, h => by simp [linScanAux] at h
  | a :: rest, i, s, h => by
    by_cases hc : segContains a t = true
    · simp only [linScanAux, hc, if_true, Option.some.injEq, Prod.mk.injEq] at h
      obtain ⟨hi, hs⟩ := h
      subst hi; subst hs
      exact ⟨by simp, hc, by omega⟩
    · rw [Bool.not_eq_true] at hc
      simp only [linScanAux, hc, Bool.false_eq_true, if_false] at h
      rw [linScanAux_shift] at h
      cases hbase : linScanAux t rest 0 with
      | none => simp [hbase] at h
      | some p =>
        rw [hbase] at h
        simp only [Option.map_some', Option.some.injEq] at h
        obtain ⟨j, u⟩ := p
        simp only [Prod.mk.injEq] at h
        obtain ⟨hij, hs⟩ := h
        subst hs
        obtain ⟨hget, hcon, hmin⟩ := linScanAux_some_spec t rest j u hbase
        subst hij
        refine ⟨by simpa using hget, hcon, ?_⟩
        intro m hm u hu
        cases m with
        | zero =>
          simp only [List.getElem?_cons_zero, Option.some.injEq] at hu
          subst hu
          exact hc
        | succ m' =>
          simp only [List.getElem?_cons_succ] at hu
          exact hmin m' (by omega) u hu

theorem linScanAux_eq_some_of (t : ℚ) :
    ∀ (l : List SubtitleSegment) (i : ℕ) (s : SubtitleSegment),
      l[i]? = some s → segContains s t = true →
      (∀ j < i, ∀ u, l[j]? = some u → segContains u t = false) →
      linScanAux t l 0 = some (i, s)
  | [], i, s, hget, _, _ => by simp at hget
  | a :: rest, i, s, hget, hcon, hmin => by
    cases i with
    | zero =>
      simp only [List.getElem?_cons_zero, Option.some.injEq] at hget
      subst hget
      simp [linScanAux, hcon]
    | succ i' =>
      have ha : segContains a t = false := hmin 0 (by omega) a (by simp)
      simp only [linScanAux, ha, Bool.false_eq_true, if_false]
      rw [linScanAux_shift]
      have hrest : linScanAux t rest 0 = some (i', s) := by
        refine linScanAux_eq_some_of t rest i' s (by simpa using hget) hcon ?_
        intro j hj u hu
        exact hmin (j + 1) (by omega) u (by simpa using hu)
      rw [hrest]
      simp

/-- The normalized-invariant hypothesis of the locator claim: sorted,
non-overlapping, strictly positive durations. -/
def Normalized (subs : List SubtitleSegment) : Prop :=
  subs.Pairwise segLE
  ∧ subs.Pairwise (fun a b => a.endTime ≤ b.startTime)
  ∧ ∀ s ∈ subs, s.startTime < s.endTime

/-- Locator-state invariant: the refs are either fully reset, or cursor and
cache hold exactly the result of the reference scan at the last query time. -/
def LocInv (subs : List SubtitleSegment) (st : LocState) (t0 : ℚ) : Prop :=
  st = ⟨-1, none⟩
  ∨ ∃ (k : ℕ) (c : SubtitleSegment),
      st = ⟨(k : ℤ), some c⟩ ∧ linScanAux t0 subs 0 = some (k, c)

/-- On a normalized list, no segment strictly before the one matched at an
earlier time `t0` can contain a later time `t`. -/
theorem no_earlier_match (subs : List SubtitleSegment) (hn : Normalized subs)
    {t0 t : ℚ} {k : ℕ} {c : SubtitleSegment}
    (hscan : linScanAux t0 subs 0 = some (k, c)) (ht : t0 ≤ t) :
    ∀ j < k, ∀ u, subs[j]? = some u → segContains u t = false := by
  obtain ⟨hget, hcon, hmin⟩ := linScanAux_some_spec t0 subs k c hscan
  intro j hj u hu
  by_contra hcontra
  rw [Bool.not_eq_false] at hcontra
  obtain ⟨hut1, hut2⟩ := segContains_iff.mp hcontra
  obtain ⟨hc1, hc2⟩ := segContains_iff.mp hcon
  obtain ⟨hklen, hke⟩ := List.getElem?_eq_some_iff.mp hget
  obtain ⟨hjlen, hje⟩ := List.getElem?_eq_some_iff.mp hu
  have hov : u.endTime ≤ c.startTime := by
    have hpw := List.pairwise_iff_getElem.mp hn.2.1 j k hjlen hklen hj
    rw [hje, hke] at hpw
    exact hpw
  have hu_mem : u ∈ subs := by
    rw [← hje]
    exact List.getElem_mem hjlen
  have hdu : u.startTime < u.endTime := hn.2.2 u hu_mem
  have hconu : segContains u t0 = true :=
    segContains_iff.mpr ⟨by linarith, by linarith⟩
  have := hmin j hj u hu
  rw [hconu] at this
  exact absurd this (by simp)

theorem scanPart_neg_one (subs : List SubtitleSegment) (hp : subs.Pairwise segLE) (t : ℚ) :
    scanPart subs (-1) t =
      match linScanAux t subs 0 with
      | some (i, s) => (some s, (i : ℤ))
      | none => (none, -1) := by
  have h0 : ((-1 : ℤ)).toNat = 0 := rfl
  simp only [scanPart, h0, List.drop_zero]
  rw [fwdScanAux_eq_linScanAux t subs hp 0]
  cases hcase : linScanAux t subs 0 with
  | none => simp
  | some p => obtain ⟨i, s⟩ := p; rfl

theorem scanPart_spec (subs : List SubtitleSegment) (hp : subs.Pairwise segLE) (t : ℚ)
    (k : ℕ) (hk : k ≤ subs.length)
    (hnone : ∀ j < k, ∀ u, subs[j]? = some u → segContains u t = false) :
    scanPart subs (k : ℤ) t =
      match linScanAux t subs 0 with
      | some (i, s) => (some s, (i : ℤ))
      | none => (none, -1) := by
  have htake_none : linScanAux t (subs.take k) 0 = none := by
    rw [linScanAux_eq_none]
    intro u hu
    obtain ⟨j, hj⟩ := List.mem_iff_getElem?.mp hu
    have hjk : j < k := by
      by_contra hge
      push_neg at hge
      have : (subs.take k)[j]? = none :=
        List.getElem?_eq_none (by rw [List.length_take]; omega)
      rw [this] at hj
      exact absurd hj (by simp)
    rw [List.getElem?_take_of_lt hjk] at hj
    exact hnone j hjk u hj
  have hfwd : fwdScanAux t (subs.drop k) k = linScanAux t (subs.drop k) k :=
    fwdScanAux_eq_linScanAux t _ (List.Pairwise.sublist (List.drop_sublist k subs) hp) k
  have hsplit : linScanAux t subs 0 = linScanAux t (subs.drop k) k := by
    conv_lhs => rw [← List.take_append_drop k subs]
    rw [linScanAux_append_none t (subs.take k) (subs.drop k) 0 htake_none]
    congr 1
    rw [List.length_take]
    omega
  simp only [scanPart, Int.toNat_ofNat]
  rw [hfwd, ← hsplit]
  cases hcase : linScanAux t subs 0 with
  | none =>
    by_cases hk0 : 0 < k
    · simp [hk0, htake_none]
    · simp [hk0]
  | some p => obtain ⟨i, s⟩ := p; rfl

/-- Unfolding of `updateUILookup` for a non-empty list. -/
theorem updateUILookup_eq (subs : List SubtitleSegment) (st : LocState) (t : ℚ)
    (h : ¬ subs.length = 0) :
    updateUILookup subs st t =
      (let cur : ℤ := if (subs.length : ℤ) ≤ st.cursor then -1 else st.cursor
       let found : Option SubtitleSegment × ℤ :=
         match st.cache with
         | some c => if segContains c t then (some c, cur) else scanPart subs cur t
         | none => scanPart subs cur t
       (found.1, if found.1 = st.cache then ⟨cur, st.cache⟩ else ⟨found.2, found.1⟩)) := by
  unfold updateUILookup
  rw [if_neg h]

/-- Step lemma from the fully reset state: one lookup returns exactly the
reference linear scan and re-establishes the invariant. -/
theorem updateUILookup_reset (subs : List SubtitleSegment) (hn : Normalized subs) (t : ℚ) :
    (updateUILookup subs ⟨-1, none⟩ t).1 = linearLocate subs t
    ∧ LocInv subs (updateUILookup subs ⟨-1, none⟩ t).2 t := by
  by_cases hlen : subs.length = 0
  · have hnil : subs = [] := List.length_eq_zero.mp hlen
    subst hnil
    exact ⟨rfl, Or.inl rfl⟩
  · have hcur : ¬ ((subs.length : ℤ) ≤ (-1 : ℤ)) := by omega
    rw [updateUILookup_eq subs ⟨-1, none⟩ t hlen]
    simp only [if_neg hcur]
    rw [scanPart_neg_one subs hn.1 t]
    cases hscan : linScanAux t subs 0 with
    | none =>
      simp only [linearLocate, hscan]
      exact ⟨rfl, Or.inl rfl⟩
    | some p =>
      obtain ⟨i, s⟩ := p
      simp only [linearLocate, hscan]
      refine ⟨rfl, ?_⟩
      right
      exact ⟨i, s, by simp, hscan⟩

/-- Step lemma from an invariant state: one lookup at a later (or equal)
time returns exactly the reference linear scan and preserves the invariant. -/
theorem updateUILookup_step (subs : List SubtitleSegment) (hn : Normalized subs)
    {st : LocState} {t0 : ℚ} (hinv : LocInv subs st t0) {t : ℚ} (ht : t0 ≤ t) :
    (updateUILookup subs st t).1 = linearLocate subs t
    ∧ LocInv subs (updateUILookup subs st t).2 t := by
  rcases hinv with hreset | ⟨k, c, hst, hscan⟩
  · subst hreset
    exact updateUILookup_reset subs hn t
  · subst hst
    obtain ⟨hget, hcon, hmin⟩ := linScanAux_some_spec t0 subs k c hscan
    obtain ⟨hklen, hke⟩ := List.getElem?_eq_some_iff.mp hget
    have hlen : ¬ subs.length = 0 := by omega
    have hcur : ¬ ((subs.length : ℤ) ≤ ((k : ℕ) : ℤ)) := by
      omega
    rw [updateUILookup_eq subs ⟨(k : ℤ), some c⟩ t hlen]
    simp only [if_neg hcur]
    by_cases hfast : segContains c t = true
    · -- cached fast path: the cached segment still contains t
      have hlin : linScanAux t subs 0 = some (k, c) :=
        linScanAux_eq_some_of t subs k c hget hfast (no_earlier_match subs hn hscan ht)
      simp only [hfast, if_true, linearLocate, hlin]
      exact ⟨rfl, Or.inr ⟨k, c, by simp, hlin⟩⟩
    · -- cache miss: scan, which matches the reference scan
      rw [Bool.not_eq_true] at hfast
      have hsp := scanPart_spec subs hn.1 t k (le_of_lt hklen)
        (no_earlier_match subs hn hscan ht)
      simp only [hfast, Bool.false_eq_true, if_false, hsp]
      cases hlin : linScanAux t subs 0 with
      | none =>
        simp only [linearLocate, hlin]
        refine ⟨rfl, ?_⟩
        have : (none : Option SubtitleSegment) ≠ some c := by simp
        simp only [this, if_neg]
        exact Or.inl rfl
      | some p =>
        obtain ⟨i, s⟩ := p
        obtain ⟨hget', hcon', _⟩ := linScanAux_some_spec t subs i s hlin
        have hne : some s ≠ some c := by
          intro heq
          rw [Option.some.injEq] at heq
          subst heq
          rw [hcon'] at hfast
          exact absurd hfast (by simp)
        simp only [linearLocate, hlin, hne, if_neg]
        exact ⟨rfl, Or.inr ⟨i, s, by simp, hlin⟩⟩

/-- Fold lemma: starting from any invariant state, a monotone run of
lookups returns exactly the reference linear scan at every queried time. -/
theorem runLocate_inv (subs : List SubtitleSegment) (hn : Normalized subs) :
    ∀ (ts : List ℚ) (st : LocState) (t0 : ℚ), LocInv subs st t0 →
      List.Chain' (· ≤ ·) (t0 :: ts) →
      (runLocate subs st ts).1 = ts.map (linearLocate subs)
  | [], _, _, _, _ => rfl
  | t :: ts', st, t0, hinv, hchain => by
    obtain ⟨hle, hchain'⟩ := List.chain'_cons.mp hchain
    obtain ⟨hout, hinv'⟩ := updateUILookup_step subs hn hinv hle
    simp only [runLocate, List.map_cons]
    rw [hout]
    congr 1
    exact runLocate_inv subs hn ts' (updateUILookup subs st t).2 t hinv' hchain'

/-- Claim C4: starting from the reset state (cursor `-1`, cache `none`), the
cursor-based lookup of `updateUI` — cached fast path, forward scan with
early exit, backward fallback — returns, over any monotonically
non-decreasing sequence of query times on a normalized segment list, exactly
what the reference O(n) linear scan returns at every queried time. -/
theorem locator_refines_linear (subs : List SubtitleSegment) (ts : List ℚ)
    (hn : Normalized subs) (hmono : ts.Chain' (· ≤ ·)) :
    (runLocate subs ⟨-1, none⟩ ts).1 = ts.map (linearLocate subs) := by
  cases ts with
  | nil => rfl
  | cons t ts' =>
    exact runLocate_inv subs hn (t :: ts') ⟨-1, none⟩ t (Or.inl rfl)
      (List.chain'_cons.mpr ⟨le_refl t, hmono⟩)

/-- Witness for `locator_refines_linear` on a concrete normalized list and a
concrete monotone query sequence crossing both segments and a gap. -/
theorem locator_refines_linear_witness :
    Normalized [⟨0, 1, "A", "a"⟩, ⟨2, 3, "B", "b"⟩]
    ∧ List.Chain' (· ≤ ·) [(1 : ℚ)/2, 3/2, 5/2, 7/2]
    ∧ (runLocate [⟨0, 1, "A", "a"⟩, ⟨2, 3, "B", "b"⟩] ⟨-1, none⟩
          [(1 : ℚ)/2, 3/2, 5/2, 7/2]).1
        = [(1 : ℚ)/2, 3/2, 5/2, 7/2].map (linearLocate [⟨0, 1, "A", "a"⟩, ⟨2, 3, "B", "b"⟩]) := by
  have hn : Normalized [⟨0, 1, "A", "a"⟩, ⟨2, 3, "B", "b"⟩] :=
    ⟨by decide, by decide, by decide⟩
  have hc : List.Chain' (· ≤ ·) [(1 : ℚ)/2, 3/2, 5/2, 7/2] :=
    List.chain'_cons.mpr ⟨by norm_num, List.chain'_cons.mpr ⟨by norm_num,
      List.chain'_cons.mpr ⟨by norm_num, List.chain'_singleton _⟩⟩⟩
  exact ⟨hn, hc, locator_refines_linear _ _ hn hc⟩

/-- Claim C10: every array access of the lookup is in bounds.  In this total
embedding that is witnessed by the two operational facts the code relies on:
(i) on an empty segment list the lookup returns `none` without consulting
any index, and (ii) a stale cursor at or beyond the current list length is
reset to `-1` before being used as a scan start — the lookup behaves exactly
as with cursor `-1`, for every query time. -/
theorem lookup_bounds_safe :
    (∀ (st : LocState) (t : ℚ), (updateUILookup [] st t).1 = none)
    ∧ (∀ (subs : List SubtitleSegment) (st : LocState) (t : ℚ),
        subs ≠ [] → (subs.length : ℤ) ≤ st.cursor →
        updateUILookup subs st t = updateUILookup subs ⟨-1, st.cache⟩ t) := by
  constructor
  · intro st t
    rfl
  · intro subs st t hne hstale
    have hlen : ¬ subs.length = 0 := fun h => hne (List.length_eq_zero.mp h)
    rw [updateUILookup_eq subs st t hlen, updateUILookup_eq subs ⟨-1, st.cache⟩ t hlen]
    simp only [if_pos hstale]
    rw [if_neg (show ¬ ((subs.length : ℤ) ≤ (-1 : ℤ)) by omega)]

/-- Witness for `lookup_bounds_safe`: an empty list with a dangling state,
and a stale cursor (3) beyond a singleton list's length. -/
theorem lookup_bounds_safe_witness :
    (updateUILookup [] ⟨7, some ⟨0, 1, "A", "a"⟩⟩ 2).1 = none
    ∧ ([(⟨0, 1, "A", "a"⟩ : SubtitleSegment)] ≠ []
        ∧ (([(⟨0, 1, "A", "a"⟩ : SubtitleSegment)].length : ℤ) ≤ (3 : ℤ))
        ∧ updateUILookup [⟨0, 1, "A", "a"⟩] ⟨3, some ⟨0, 1, "A", "a"⟩⟩ (1/2)
            = updateUILookup [⟨0, 1, "A", "a"⟩] ⟨-1, some ⟨0, 1, "A", "a"⟩⟩ (1/2)) :=
  ⟨lookup_bounds_safe.1 ⟨7, some ⟨0, 1, "A", "a"⟩⟩ 2,
    by decide, by decide,
    lookup_bounds_safe.2 [⟨0, 1, "A", "a"⟩] ⟨3, some ⟨0, 1, "A", "a"⟩⟩ (1/2)
      (by decide) (by decide)⟩

/-! ## Export cache, fingerprint and resource teardown (App.tsx) -/

/-- `SubtitleViewMode` from `src/types.ts`. -/
inductive SubtitleViewMode
  | dual | en | cn | off
deriving DecidableEq

/-- `SubtitleStyle` from `src/types.ts`. -/
structure SubtitleStyle where
  enSize : ℚ
  cnSize : ℚ
  enColor : String
  cnColor : String
  verticalPosition : ℚ
deriving DecidableEq

/-- `ExportFormat` from `src/App.tsx`. -/
inductive ExportFormat
  | mp4 | webm | mov | mkv | avi
deriving DecidableEq

/-- The export fingerprint: `JSON.stringify({videoUrl, subtitles, viewMode,
subStyle, exportFormat})` (App.tsx lines 432-438).  The serialization is a
deterministic injective encoding of this record, so the key is modelled by
the record itself, compared for equality. -/
structure ExportFingerprint where
  videoUrl : String
  subtitles : List SubtitleSegment
  viewMode : SubtitleViewMode
  subStyle : SubtitleStyle
  exportFormat : ExportFormat
deriving DecidableEq

/-- `cachedExportRef` entry (App.tsx lines 76-80): key, artifact blob
(modelled as its byte content) and suggested file name. -/
structure ExportCacheEntry where
  key : ExportFingerprint
  blob : List ℕ
  fileName : String
deriving DecidableEq

/-- Outcome of the front part of `handleExportBurned` (lines 429-448):
rejected (no source / already exporting), served from the cache (early
return before any capture/encoder construction), or proceed to encode. -/
inductive ExportDecision
  | rejected | servedFromCache | startEncode
deriving DecidableEq

/-- The guard and cache check of `handleExportBurned` (App.tsx lines
429-448): `if (!videoData.url || isExporting) return;` then serve the cache
on an exact key match, else fall through to the encode pipeline (the offline
video element, capture graph and recorder are only constructed on
`startEncode`). -/
def exportDecision (hasUrl isExporting : Bool) (cache : Option ExportCacheEntry)
    (req : ExportFingerprint) : ExportDecision :=
  if !hasUrl || isExporting then .rejected
  else
    match cache with
    | some e => if e.key = req then .servedFromCache else .startEncode
    | none => .startEncode

/-- The runtime state touched by the export teardown paths: the single-slot
cache, the offscreen resources, the recorder, its handlers, and the
user-facing flags.  (Progress / ETA counters are reset alongside
`isExporting` and are not modelled separately.) -/
structure ExportRuntime where
  cache : Option ExportCacheEntry
  offlineVideoAttached : Bool
  audioCtxOpen : Bool
  recorderRecording : Bool
  onstopAttached : Bool
  onerrorAttached : Bool
  isExporting : Bool
  exportResult : Option Bool
deriving DecidableEq

/-- `cleanup` (App.tsx lines 538-552): pause/detach the offline video
element, close the audio context, clear the exporting flag.  It does not
touch the recorder or the cache. -/
def cleanup (st : ExportRuntime) : ExportRuntime :=
  { st with offlineVideoAttached := false, audioCtxOpen := false, isExporting := false }

/-- `recorder.onstop` (App.tsx lines 553-569): assemble the blob, overwrite
the single cache slot unconditionally, surface success, then `cleanup()`. -/
def recorderOnStop (st : ExportRuntime) (key : ExportFingerprint) (blob : List ℕ)
    (fileName : String) : ExportRuntime :=
  cleanup { st with cache := some ⟨key, blob, fileName⟩, exportResult := some true }

/-- `recorder.onerror` (App.tsx lines 570-574): surface a failure and run
`cleanup()`.  Note: it neither stops the recorder nor touches the cache. -/
def recorderOnError (st : ExportRuntime) : ExportRuntime :=
  cleanup { st with exportResult := some false }

/-- `cancelExport` (App.tsx lines 107-131): detach `onstop`/`onerror`, stop
the recorder if active, release the offline video element and the audio
context, clear the exporting flag.  The cache and `exportResult` are not
touched. -/
def cancelExport (st : ExportRuntime) : ExportRuntime :=
  { st with onstopAttached := false, onerrorAttached := false,
            recorderRecording := false, offlineVideoAttached := false,
            audioCtxOpen := false, isExporting := false }

/-- Claim C6: an exact fingerprint match is served from the cache (no encode
work); changing any one of style, view mode or format changes the
fingerprint and forces an encode; completing a job always overwrites the
single cache slot, whatever it held. -/
theorem exportCache_spec :
    (∀ (e : ExportCacheEntry) (req : ExportFingerprint), e.key = req →
        exportDecision true false (some e) req = ExportDecision.servedFromCache)
    ∧ (∀ (e : ExportCacheEntry) (req : ExportFingerprint),
        e.key.subStyle ≠ req.subStyle →
        e.key ≠ req ∧ exportDecision true false (some e) req = ExportDecision.startEncode)
    ∧ (∀ (e : ExportCacheEntry) (req : ExportFingerprint),
        e.key.viewMode ≠ req.viewMode →
        e.key ≠ req ∧ exportDecision true false (some e) req = ExportDecision.startEncode)
    ∧ (∀ (e : ExportCacheEntry) (req : ExportFingerprint),
        e.key.exportFormat ≠ req.exportFormat →
        e.key ≠ req ∧ exportDecision true false (some e) req = ExportDecision.startEncode)
    ∧ (∀ (st : ExportRuntime) (key : ExportFingerprint) (blob : List ℕ) (fn : String),
        (recorderOnStop st key blob fn).cache = some ⟨key, blob, fn⟩) := by
  refine ⟨?_, ?_, ?_, ?_, ?_⟩
  · intro e req h
    simp [exportDecision, h]
  · intro e req h
    have hne : e.key ≠ req := fun hk => h (by rw [hk])
    exact ⟨hne, by simp [exportDecision, hne]⟩
  · intro e req h
    have hne : e.key ≠ req := fun hk => h (by rw [hk])
    exact ⟨hne, by simp [exportDecision, hne]⟩
  · intro e req h
    have hne : e.key ≠ req := fun hk => h (by rw [hk])
    exact ⟨hne, by simp [exportDecision, hne]⟩
  · intro st key blob fn
    rfl

/-- Witness for `exportCache_spec` at the app's default style/view/format. -/
theorem exportCache_spec_witness :
    ((⟨⟨"blob:v", [], .dual, ⟨15, 15, "#ffffff", "#facc15", 10⟩, .mp4⟩, [7],
        "v_subs.mp4"⟩ : ExportCacheEntry).key
      = (⟨"blob:v", [], .dual, ⟨15, 15, "#ffffff", "#facc15", 10⟩, .mp4⟩ : ExportFingerprint)
      ∧ exportDecision true false
          (some ⟨⟨"blob:v", [], .dual, ⟨15, 15, "#ffffff", "#facc15", 10⟩, .mp4⟩, [7],
            "v_subs.mp4"⟩)
          ⟨"blob:v", [], .dual, ⟨15, 15, "#ffffff", "#facc15", 10⟩, .mp4⟩
        = ExportDecision.servedFromCache)
    ∧ ((⟨⟨"blob:v", [], .dual, ⟨15, 15, "#ffffff", "#facc15", 10⟩, .mp4⟩, [7],
        "v_subs.mp4"⟩ : ExportCacheEntry).key.viewMode ≠ SubtitleViewMode.en
      ∧ exportDecision true false
          (some ⟨⟨"blob:v", [], .dual, ⟨15, 15, "#ffffff", "#facc15", 10⟩, .mp4⟩, [7],
            "v_subs.mp4"⟩)
          ⟨"blob:v", [], .en, ⟨15, 15, "#ffffff", "#facc15", 10⟩, .mp4⟩
        = ExportDecision.startEncode)
    ∧ (recorderOnStop ⟨some ⟨⟨"blob:v", [], .dual, ⟨15, 15, "#ffffff", "#facc15", 10⟩, .mp4⟩,
          [7], "v_subs.mp4"⟩, true, true, true, true, true, true, none⟩
        ⟨"blob:v", [], .en, ⟨15, 15, "#ffffff", "#facc15", 10⟩, .webm⟩ [9] "v_subs.webm").cache
      = some ⟨⟨"blob:v", [], .en, ⟨15, 15, "#ffffff", "#facc15", 10⟩, .webm⟩, [9],
          "v_subs.webm"⟩ := by
  refine ⟨⟨rfl, exportCache_spec.1 _ _ rfl⟩, ⟨by decide, ?_⟩, ?_⟩
  · exact (exportCache_spec.2.2.1 _ _ (by decide)).2
  · exact exportCache_spec.2.2.2.2 _ _ _ _

/-- Claim C8, counterexample.  On an encoder-level runtime error the
handler surfaces the failure and runs `cleanup()`, but `cleanup` never
stops or detaches the recorder: a recorder that was recording is still
recording (and its handlers still attached) after the error path, so "all
capture resources (… recorder) are released" fails for the error case. -/
theorem recorderOnError_keeps_recorder :
    (recorderOnError ⟨none, true, true, true, true, true, true, none⟩).recorderRecording
      = true := rfl

/-- Claim C8, amended.  On an encoder error and on user cancellation the
cache slot is untouched (no partial artifact) and the offline video element
and audio context are released; the recorder itself is stopped and its
handlers detached only on the cancellation path (the error path leaves it to
the platform, the recorder having already failed); only the error path
surfaces a failure — cancellation surfaces nothing. -/
theorem error_and_cancel_paths (st : ExportRuntime) :
    (recorderOnError st).cache = st.cache
    ∧ (cancelExport st).cache = st.cache
    ∧ (recorderOnError st).offlineVideoAttached = false
    ∧ (recorderOnError st).audioCtxOpen = false
    ∧ (recorderOnError st).isExporting = false
    ∧ (cancelExport st).offlineVideoAttached = false
    ∧ (cancelExport st).audioCtxOpen = false
    ∧ (cancelExport st).recorderRecording = false
    ∧ (cancelExport st).onstopAttached = false
    ∧ (cancelExport st).onerrorAttached = false
    ∧ (recorderOnError st).exportResult = some false
    ∧ (cancelExport st).exportResult = st.exportResult :=
  ⟨rfl, rfl, rfl, rfl, rfl, rfl, rfl, rfl, rfl, rfl, rfl, rfl⟩

/-! ## Object identity in `postProcessSubtitles` (claim C9)

The JS function copies the array but not the segment objects: `[...]`
shallow-copies, the clamp and the trim assign `segment.endTime` in place.
The heap model below gives every input object an id (its position in the
input array), keeps the store of objects separate from the id list the
function reorders, and replays the two mutating passes on the store. -/

/-- Sort order on object ids, keyed by the stored segment's start time. -/
def segIdLE (store : List SubtitleSegment) (i j : ℕ) : Prop :=
  (store.getD i default).startTime ≤ (store.getD j default).startTime

instance (store : List SubtitleSegment) : DecidableRel (segIdLE store) := fun i j =>
  inferInstanceAs (Decidable ((store.getD i default).startTime ≤ (store.getD j default).startTime))

instance (store : List SubtitleSegment) : IsTotal ℕ (segIdLE store) :=
  ⟨fun _ _ => le_total _ _⟩

instance (store : List SubtitleSegment) : IsTrans ℕ (segIdLE store) :=
  ⟨fun _ _ _ h1 h2 => le_trans h1 h2⟩

/-- The stable sort of `postProcessSubtitles`, acting on object ids. -/
def idsSortedByStart (subs : List SubtitleSegment) : List ℕ :=
  (List.range subs.length).insertionSort (segIdLE subs)

/-- The clamp pass, mutating the store in place along the sorted id list. -/
def heapClamp (store : List SubtitleSegment) (ids : List ℕ) : List SubtitleSegment :=
  ids.foldl (fun acc i => acc.set i (clampSeg (acc.getD i default))) store

/-- The overlap-trim pass, mutating the store in place along adjacent sorted
id pairs. -/
def heapTrim (store : List SubtitleSegment) : List ℕ → List SubtitleSegment
  | [] => store
  | [_] => store
  | a :: b :: rest =>
    let sa := store.getD a default
    let sb := store.getD b default
    heapTrim (if sb.startTime < sa.endTime
        then store.set a { sa with endTime := sb.startTime } else store)
      (b :: rest)

/-- `postProcessSubtitles` with object identity: returns the id list of the
returned array (each id an input object) and the final state of the input
objects. -/
def postProcessHeap (subs : List SubtitleSegment) : List ℕ × List SubtitleSegment :=
  if subs.isEmpty then ([], subs)
  else
    let ids := idsSortedByStart subs
    (ids, heapTrim (heapClamp subs ids) ids)

/-- Claim C9: the returned array consists exactly of the input objects (a
permutation of the input ids — no copies), and the mutating passes can
change the caller's objects: the zero-duration input `{5,5}` has its
`endTime` overwritten to `6.5` in place, and in the overlapping pair
`{0,2},{1.5,3}` the first input object's `endTime` is overwritten to `1.5`
— in both cases the raw input segments do not survive normalization
unchanged. -/
theorem postProcessHeap_shares_and_mutates :
    (∀ subs : List SubtitleSegment,
        List.Perm (postProcessHeap subs).1 (List.range subs.length))
    ∧ (postProcessHeap [⟨5, 5, "X", "x"⟩]).2 = [⟨5, 13/2, "X", "x"⟩]
    ∧ ([(⟨5, 13/2, "X", "x"⟩ : SubtitleSegment)] ≠ [⟨5, 5, "X", "x"⟩])
    ∧ (postProcessHeap [⟨0, 2, "A", "a"⟩, ⟨3/2, 3, "B", "b"⟩]).2
        = [⟨0, 3/2, "A", "a"⟩, ⟨3/2, 3, "B", "b"⟩] := by
  refine ⟨?_, ?_, ?_, ?_⟩
  · intro subs
    by_cases hE : subs.isEmpty
    · have hnil : subs = [] := List.isEmpty_iff.mp hE
      subst hnil
      simp [postProcessHeap]
    · simp only [postProcessHeap, if_neg hE]
      exact List.perm_insertionSort _ _
  · norm_num [postProcessHeap, idsSortedByStart, heapClamp, heapTrim, clampSeg, segIdLE,
      List.insertionSort, List.orderedInsert, List.getD]
  · norm_num [SubtitleSegment.mk.injEq]
  · norm_num [postProcessHeap, idsSortedByStart, heapClamp, heapTrim, clampSeg, segIdLE,
      List.insertionSort, List.orderedInsert, List.getD]

/-! ## Caption file writer and round trip (`downloadSRT`, App.tsx lines 407-427)

The writer is translated from the source.  The repository contains no
caption-file parser — only the writer — so the reparsing side is modelled
from the spec (see `parseSrt`). -/

/-- The character of a decimal digit. -/
def digitChar (d : ℕ) : Char := Char.ofNat (48 + d)

/-- Two-digit zero-padded field, as produced by `toISOString`. -/
def pad2 (n : ℕ) : List Char := [digitChar (n / 10), digitChar (n % 10)]

/-- Three-digit zero-padded milliseconds field. -/
def pad3 (n : ℕ) : List Char := [digitChar (n / 100), digitChar (n / 10 % 10), digitChar (n % 10)]

/-- The `HH:MM:SS,mmm` characters that
`toISOString().substr(11,12).replace('.', ',')` produces for a `Date` at
`ms` milliseconds after the epoch (the hour field wraps at 24 when the ISO
day rolls over). -/
def srtTimeChars (ms : ℕ) : List Char :=
  pad2 (ms / 3600000 % 24) ++ [':'] ++ pad2 (ms / 60000 % 60) ++ [':']
    ++ pad2 (ms / 1000 % 60) ++ [','] ++ pad3 (ms % 1000)

/-- `date.setMilliseconds(s * 1000)`: the ECMAScript TimeClip truncates the
fractional milliseconds toward zero, which for the nonnegative times the
theorems quantify over is the floor.  (`Int.toNat` clamps negative times,
which the JS `Date` would render as a meaningless pre-epoch timestamp.) -/
def msOf (t : ℚ) : ℕ := (⌊t * 1000⌋).toNat

/-- `formatSrtTime` (App.tsx lines 410-414). -/
def formatSrtTime (t : ℚ) : String := ⟨srtTimeChars (msOf t)⟩

/-- Decimal digits of a natural number (the `${index + 1}` interpolation),
fuel-structured so it evaluates in the kernel. -/
def natCharsAux : ℕ → ℕ → List Char
  | 0, _ => []
  | fuel + 1, n =>
    if n < 10 then [digitChar n] else natCharsAux fuel (n / 10) ++ [digitChar (n % 10)]

def natChars (n : ℕ) : List Char := natCharsAux (n + 1) n

/-- The lines `downloadSRT` writes for a segment list starting at 0-based
index `i`: `${index+1}`, the timing line, the english line, the chinese
line, and a blank line. -/
def srtLinesAux : ℕ → List SubtitleSegment → List (List Char)
  | _, [] => []
  | i, s :: rest =>
    natChars (i + 1)
      :: (srtTimeChars (msOf s.startTime) ++ [' ', '-', '-', '>', ' ']
            ++ srtTimeChars (msOf s.endTime))
      :: s.english.data :: s.chinese.data :: ([] : List Char)
      :: srtLinesAux (i + 1) rest

def srtLines (subs : List SubtitleSegment) : List (List Char) := srtLinesAux 0 subs

/-- `srtContent` accumulated by `downloadSRT`: every line followed by
`\n`. -/
def srtContent (subs : List SubtitleSegment) : String :=
  ⟨((srtLines subs).map (· ++ ['\n'])).flatten⟩

/-- Line splitter on `\n` (the semantics of reading the plain-text file
back line by line); the final piece after the trailing newline is empty. -/
def splitNL : List Char → List (List Char)
  | [] => [[]]
  | c :: cs =>
    if c = '\n' then [] :: splitNL cs
    else
      match splitNL cs with
      | [] => [[c]]
      | l :: ls => (c :: l) :: ls

def digitVal (c : Char) : ℕ := c.toNat - 48

/-- Parse `HH:MM:SS,mmm` back to milliseconds. -/
def parse12 : List Char → Option ℕ
  | [h1, h2, c1, m1, m2, c2, s1, s2, c3, x1, x2, x3] =>
    if c1 = ':' ∧ c2 = ':' ∧ c3 = ','
        ∧ h1.isDigit ∧ h2.isDigit ∧ m1.isDigit ∧ m2.isDigit
        ∧ s1.isDigit ∧ s2.isDigit ∧ x1.isDigit ∧ x2.isDigit ∧ x3.isDigit then
      some ((digitVal h1 * 10 + digitVal h2) * 3600000
        + (digitVal m1 * 10 + digitVal m2) * 60000
        + (digitVal s1 * 10 + digitVal s2) * 1000
        + (digitVal x1 * 100 + digitVal x2 * 10 + digitVal x3))
    else none
  | _ => none

/-- Parse a timing line `HH:MM:SS,mmm --> HH:MM:SS,mmm`. -/
def parseTiming (cs : List Char) : Option (ℕ × ℕ) :=
  if cs.length = 29 ∧ (cs.drop 12).take 5 = [' ', '-', '-', '>', ' '] then
    match parse12 (cs.take 12), parse12 (cs.drop 17) with
    | some t1, some t2 => some (t1, t2)
    | _, _ => none
  else none

/-- Modelled from the spec: the repository has no caption-file parser (the
spec's §6 only fixes the format), so reparsing follows the spec's words —
per entry a sequence-number line (read and not used), the timing line, the
primary text line, the secondary text line, and a blank line. -/
def parseEntries : List (List Char) → Option (List SubtitleSegment)
  | [] => some []
  | [[]] => some []
  | _seq :: timing :: en :: cn :: blank :: rest =>
    if blank = [] then
      match parseTiming timing, parseEntries rest with
      | some (t1, t2), some segs =>
        some (⟨(t1 : ℚ) / 1000, (t2 : ℚ) / 1000, ⟨en⟩, ⟨cn⟩⟩ :: segs)
      | _, _ => none
    else none
  | _ => none

/-- Modelled from the spec: reparse the caption file (split into lines,
then parse entry groups). -/
def parseSrt (content : String) : Option (List SubtitleSegment) :=
  parseEntries (splitNL content.data)

/-- Time quantization the write/reparse cycle performs: both times are
truncated to whole milliseconds; texts are untouched. -/
def msQuantize (s : SubtitleSegment) : SubtitleSegment :=
  { s with startTime := (msOf s.startTime : ℚ) / 1000,
           endTime := (msOf s.endTime : ℚ) / 1000 }

/-! Digit-level facts. -/

theorem digitChar_isDigit {d : ℕ} (h : d < 10) : (digitChar d).isDigit = true := by
  interval_cases d <;> decide

theorem digitVal_digitChar {d : ℕ} (h : d < 10) : digitVal (digitChar d) = d := by
  interval_cases d <;> decide

theorem digitChar_ne_newline {d : ℕ} (h : d < 10) : digitChar d ≠ '\n' := by
  interval_cases d <;> decide

theorem parse12_srtTimeChars {ms : ℕ} (h : ms < 86400000) :
    parse12 (srtTimeChars ms) = some ms := by
  have h1 : ms / 3600000 % 24 / 10 < 10 := by omega
  have h2 : ms / 3600000 % 24 % 10 < 10 := by omega
  have h3 : ms / 60000 % 60 / 10 < 10 := by omega
  have h4 : ms / 60000 % 60 % 10 < 10 := by omega
  have h5 : ms / 1000 % 60 / 10 < 10 := by omega
  have h6 : ms / 1000 % 60 % 10 < 10 := by omega
  have h7 : ms % 1000 / 100 < 10 := by omega
  have h8 : ms % 1000 / 10 % 10 < 10 := by omega
  have h9 : ms % 1000 % 10 < 10 := by omega
  simp only [srtTimeChars, pad2, pad3, List.cons_append, List.nil_append]
  simp only [parse12]
  rw [if_pos ⟨trivial, trivial, trivial, digitChar_isDigit h1, digitChar_isDigit h2,
    digitChar_isDigit h3, digitChar_isDigit h4, digitChar_isDigit h5,
    digitChar_isDigit h6, digitChar_isDigit h7, digitChar_isDigit h8,
    digitChar_isDigit h9⟩]
  rw [digitVal_digitChar h1, digitVal_digitChar h2, digitVal_digitChar h3,
    digitVal_digitChar h4, digitVal_digitChar h5, digitVal_digitChar h6,
    digitVal_digitChar h7, digitVal_digitChar h8, digitVal_digitChar h9]
  simp only [Option.some.injEq]
  omega

theorem srtTimeChars_length (ms : ℕ) : (srtTimeChars ms).length = 12 := by
  simp [srtTimeChars, pad2, pad3]

theorem parseTiming_writer {m1 m2 : ℕ} (h1 : m1 < 86400000) (h2 : m2 < 86400000) :
    parseTiming (srtTimeChars m1 ++ [' ', '-', '-', '>', ' '] ++ srtTimeChars m2)
      = some (m1, m2) := by
  have hlen1 := srtTimeChars_length m1
  have hlen2 := srtTimeChars_length m2
  have hsplit1 :
      ((srtTimeChars m1 ++ [' ', '-', '-', '>', ' ']) ++ srtTimeChars m2).take 12
        = srtTimeChars m1 := by
    rw [List.append_assoc, List.take_left' hlen1]
  have hsplit2 :
      ((srtTimeChars m1 ++ [' ', '-', '-', '>', ' ']) ++ srtTimeChars m2).drop 17
        = srtTimeChars m2 := by
    refine List.drop_left' ?_
    rw [List.length_append, hlen1]
    rfl
  have hsplit3 :
      (((srtTimeChars m1 ++ [' ', '-', '-', '>', ' ']) ++ srtTimeChars m2).drop 12).take 5
        = [' ', '-', '-', '>', ' '] := by
    rw [List.append_assoc, List.drop_left' hlen1]
    exact List.take_left' rfl
  have hlen29 :
      ((srtTimeChars m1 ++ [' ', '-', '-', '>', ' ']) ++ srtTimeChars m2).length = 29 := by
    simp [List.length_append, hlen1, hlen2]
  unfold parseTiming
  rw [if_pos ⟨hlen29, hsplit3⟩, hsplit1, hsplit2,
    parse12_srtTimeChars h1, parse12_srtTimeChars h2]

/-! Splitting the written file recovers the written lines. -/

theorem splitNL_append (l : List Char) (hl : '\n' ∉ l) (cs : List Char) :
    splitNL (l ++ '\n' :: cs) = l :: splitNL cs := by
  induction l with
  | nil => simp [splitNL]
  | cons c l' ih =>
    have hc : ¬ c = '\n' := fun h => hl (by rw [h]; exact List.mem_cons_self _ _)
    have hl' : '\n' ∉ l' := fun h => hl (List.mem_cons_of_mem _ h)
    simp only [List.cons_append, splitNL, if_neg hc, List.append_eq]
    rw [ih hl']

theorem splitNL_flatten :
    ∀ lines : List (List Char), (∀ l ∈ lines, '\n' ∉ l) →
      splitNL ((lines.map (· ++ ['\n'])).flatten) = lines ++ [[]]
  | [], _ => rfl
  | l :: ls, h => by
    simp only [List.map_cons, List.flatten_cons]
    have hshape : (l ++ ['\n']) ++ ((ls.map (· ++ ['\n'])).flatten)
        = l ++ '\n' :: ((ls.map (· ++ ['\n'])).flatten) := by
      rw [List.append_assoc]
      rfl
    rw [hshape, splitNL_append l (h l (by simp)) _,
      splitNL_flatten ls (fun u hu => h u (List.mem_cons_of_mem _ hu))]
    rfl

/-! None of the writer's lines contains a newline (the text lines by
hypothesis). -/

theorem newline_not_mem_natCharsAux : ∀ (fuel n : ℕ), '\n' ∉ natCharsAux fuel n
  | 0, n => by simp [natCharsAux]
  | fuel + 1, n => by
    simp only [natCharsAux]
    split
    · next h =>
      intro hmem
      simp only [List.mem_singleton] at hmem
      exact digitChar_ne_newline h hmem.symm
    · intro hmem
      rcases List.mem_append.mp hmem with hmem | hmem
      · exact newline_not_mem_natCharsAux fuel (n / 10) hmem
      · simp only [List.mem_singleton] at hmem
        exact digitChar_ne_newline (by omega) hmem.symm

theorem newline_not_mem_natChars (n : ℕ) : '\n' ∉ natChars n :=
  newline_not_mem_natCharsAux (n + 1) n

theorem newline_not_mem_srtTimeChars (ms : ℕ) : '\n' ∉ srtTimeChars ms := by
  intro hmem
  have b1 : ms / 3600000 % 24 / 10 < 10 := by omega
  have b2 : ms / 3600000 % 24 % 10 < 10 := by omega
  have b3 : ms / 60000 % 60 / 10 < 10 := by omega
  have b4 : ms / 60000 % 60 % 10 < 10 := by omega
  have b5 : ms / 1000 % 60 / 10 < 10 := by omega
  have b6 : ms / 1000 % 60 % 10 < 10 := by omega
  have b7 : ms % 1000 / 100 < 10 := by omega
  have b8 : ms % 1000 / 10 % 10 < 10 := by omega
  have b9 : ms % 1000 % 10 < 10 := by omega
  simp only [srtTimeChars, pad2, pad3, List.cons_append, List.nil_append,
    List.mem_cons, List.not_mem_nil, or_false] at hmem
  rcases hmem with h | h | h | h | h | h | h | h | h | h | h | h
  · exact digitChar_ne_newline b1 h.symm
  · exact digitChar_ne_newline b2 h.symm
  · exact absurd h (by decide)
  · exact digitChar_ne_newline b3 h.symm
  · exact digitChar_ne_newline b4 h.symm
  · exact absurd h (by decide)
  · exact digitChar_ne_newline b5 h.symm
  · exact digitChar_ne_newline b6 h.symm
  · exact absurd h (by decide)
  · exact digitChar_ne_newline b7 h.symm
  · exact digitChar_ne_newline b8 h.symm
  · exact digitChar_ne_newline b9 h.symm

theorem newline_not_mem_timing (m1 m2 : ℕ) :
    '\n' ∉ (srtTimeChars m1 ++ [' ', '-', '-', '>', ' '] ++ srtTimeChars m2) := by
  intro hmem
  rcases List.mem_append.mp hmem with hmem | hmem
  · rcases List.mem_append.mp hmem with hmem | hmem
    · exact newline_not_mem_srtTimeChars m1 hmem
    · exact absurd hmem (by decide)
  · exact newline_not_mem_srtTimeChars m2 hmem

theorem srtLinesAux_no_newline :
    ∀ (subs : List SubtitleSegment) (i : ℕ),
      (∀ s ∈ subs, '\n' ∉ s.english.data ∧ '\n' ∉ s.chinese.data) →
      ∀ l ∈ srtLinesAux i subs, '\n' ∉ l
  | [], _, _ => by simp [srtLinesAux]
  | s :: rest, i, h => by
    intro l hl
    simp only [srtLinesAux, List.mem_cons] at hl
    rcases hl with rfl | rfl | rfl | rfl | rfl | hl
    · exact newline_not_mem_natChars (i + 1)
    · exact newline_not_mem_timing _ _
    · exact (h s (by simp)).1
    · exact (h s (by simp)).2
    · exact List.not_mem_nil _
    · exact srtLinesAux_no_newline rest (i + 1)
        (fun u hu => h u (List.mem_cons_of_mem _ hu)) l hl

/-! Entry parsing inverts the writer. -/

theorem msOf_lt {t : ℚ} (h : t < 86400) : msOf t < 86400000 := by
  unfold msOf
  have : ⌊t * 1000⌋ < 86400000 := Int.floor_lt.mpr (by push_cast; linarith)
  omega

theorem parseEntries_srtLinesAux :
    ∀ (subs : List SubtitleSegment) (i : ℕ),
      (∀ s ∈ subs, s.startTime < 86400 ∧ s.endTime < 86400) →
      parseEntries (srtLinesAux i subs ++ [[]]) = some (subs.map msQuantize)
  | [], _, _ => rfl
  | s :: rest, i, h => by
    have hs := h s (by simp)
    simp only [srtLinesAux, List.cons_append, parseEntries, if_true]
    rw [parseTiming_writer (msOf_lt hs.1) (msOf_lt hs.2),
      parseEntries_srtLinesAux rest (i + 1) (fun u hu => h u (List.mem_cons_of_mem _ hu))]
    rfl

theorem msOf_close {t : ℚ} (h0 : 0 ≤ t) : |((msOf t : ℕ) : ℚ) / 1000 - t| < 1/1000 := by
  unfold msOf
  have hfl : (0 : ℤ) ≤ ⌊t * 1000⌋ := Int.floor_nonneg.mpr (by positivity)
  have hcast : (((⌊t * 1000⌋).toNat : ℕ) : ℚ) = ((⌊t * 1000⌋ : ℤ) : ℚ) := by
    rw [show (((⌊t * 1000⌋).toNat : ℕ) : ℚ) = (((⌊t * 1000⌋).toNat : ℤ) : ℚ) by push_cast; rfl,
      Int.toNat_of_nonneg hfl]
  rw [hcast]
  have hle : (⌊t * 1000⌋ : ℚ) ≤ t * 1000 := Int.floor_le _
  have hgt : t * 1000 - 1 < (⌊t * 1000⌋ : ℚ) := Int.sub_one_lt_floor _
  rw [abs_lt]
  constructor <;> linarith

/-- Claim C7, amended.  For every segment list whose text fields contain no
newline and whose times lie in `[0, 86400)` seconds (one ISO day — beyond
it the writer's hour field wraps), writing the caption file and reparsing
it yields exactly the millisecond-truncated segments: both times agree
with the originals within 1 ms, and both text fields are identical. -/
theorem srt_round_trip (subs : List SubtitleSegment)
    (htext : ∀ s ∈ subs, '\n' ∉ s.english.data ∧ '\n' ∉ s.chinese.data)
    (htime : ∀ s ∈ subs, 0 ≤ s.startTime ∧ s.startTime < 86400
        ∧ 0 ≤ s.endTime ∧ s.endTime < 86400) :
    parseSrt (srtContent subs) = some (subs.map msQuantize)
    ∧ ∀ s ∈ subs,
        |(msQuantize s).startTime - s.startTime| < 1/1000
        ∧ |(msQuantize s).endTime - s.endTime| < 1/1000
        ∧ (msQuantize s).english = s.english
        ∧ (msQuantize s).chinese = s.chinese := by
  constructor
  · show parseEntries (splitNL ((srtLines subs).map (· ++ ['\n'])).flatten)
        = some (subs.map msQuantize)
    rw [splitNL_flatten (srtLines subs) (srtLinesAux_no_newline subs 0 htext)]
    exact parseEntries_srtLinesAux subs 0
      (fun s hs => ⟨(htime s hs).2.1, (htime s hs).2.2.2⟩)
  · intro s hs
    exact ⟨msOf_close (htime s hs).1, msOf_close (htime s hs).2.2.1, rfl, rfl⟩

/-- Claim C7, counterexample.  A text field containing a newline breaks the
line structure of the caption file: the written entry spans six lines
instead of five, so reparsing fails — the claim does not hold for every
segment list. -/
theorem srt_round_trip_newline_violation :
    parseSrt (srtContent [⟨0, 1, "A\nB", "C"⟩]) = none := by
  have hms0 : msOf 0 = 0 := by norm_num [msOf]
  have hms1 : msOf 1 = 1000 := by
    norm_num [msOf]
    decide
  unfold parseSrt srtContent srtLines
  simp only [srtLinesAux, hms0, hms1]
  decide

/-- Witness for `srt_round_trip` on a concrete bilingual segment. -/
theorem srt_round_trip_witness :
    (∀ s ∈ [(⟨0, 2, "Hello", "你好"⟩ : SubtitleSegment)],
        '\n' ∉ s.english.data ∧ '\n' ∉ s.chinese.data)
    ∧ (∀ s ∈ [(⟨0, 2, "Hello", "你好"⟩ : SubtitleSegment)],
        0 ≤ s.startTime ∧ s.startTime < 86400 ∧ 0 ≤ s.endTime ∧ s.endTime < 86400)
    ∧ parseSrt (srtContent [⟨0, 2, "Hello", "你好"⟩])
        = some ([(⟨0, 2, "Hello", "你好"⟩ : SubtitleSegment)].map msQuantize) := by
  have h1 : ∀ s ∈ [(⟨0, 2, "Hello", "你好"⟩ : SubtitleSegment)],
      '\n' ∉ s.english.data ∧ '\n' ∉ s.chinese.data := by decide
  have h2 : ∀ s ∈ [(⟨0, 2, "Hello", "你好"⟩ : SubtitleSegment)],
      0 ≤ s.startTime ∧ s.startTime < 86400 ∧ 0 ≤ s.endTime ∧ s.endTime < 86400 := by
    decide
  exact ⟨h1, h2, (srt_round_trip _ h1 h2).1⟩

end AutoSub
